import Mathlib

/-!
Verification development for the swm_pool_data repository.

The Python sources are shallowly embedded as Lean definitions:

* `src/checks/check_raw_scrapes.py`  — `parse_capacity`,
  `extract_facilities_from_scrape`, `check_missing_facilities`,
  `get_historical_capacities`, `check_capacity_changes`;
* `src/checks/check_compiled_data.py` — `check_extended_zero_occupancy`;
* `src/transform.py` — `resolve_facility_alias`, `load_pool_data`,
  `merge_features`, `validate_data` and the `transform` merge pipeline.

Modelling conventions:

* timestamps are integers (minutes since an arbitrary epoch); a
  `timedelta(hours=h)` becomes `h * 60`;
* a Python `None`-able value is an `Option`;
* a malformed JSON file (where `json.load` raises) is `Option.none` at the
  file level;
* pandas DataFrames are lists of records, in row order; pandas
  `sort_values` is modelled by a comparison sort (`insertionSort`);
* Python sets are modelled by lists whose membership is what matters;
  where the source relies on set-uniqueness the model deduplicates;
* library calls that only supply calendar/weather features
  (`.dt.month`, the holiday predicates, the weather index) are oracle
  functions packaged in a `FeatureCtx`; the merge logic never inspects
  their output except to copy it into non-key columns.
-/

namespace SwmPool

/-- Insert `x` into `l` before the first element `y` with `¬ le x y`.
Used to model pandas and Python sorting (only the resulting order and
permutation property matter to the source semantics). -/
def insertSorted (le : α → α → Bool) (x : α) : List α → List α
  | [] => [x]
  | y :: ys => if le x y then x :: y :: ys else y :: insertSorted le x ys

/-- Comparison sort used to model `sort_values` / `sorted`. -/
def insertionSort (le : α → α → Bool) : List α → List α
  | [] => []
  | x :: xs => insertSorted le x (insertionSort le xs)

theorem perm_insertSorted (le : α → α → Bool) (x : α) (l : List α) :
    (insertSorted le x l).Perm (x :: l) := by
  induction l with
  | nil => simp [insertSorted]
  | cons y ys ih =>
    simp only [insertSorted]
    by_cases h : le x y = true
    · simp [h]
    · simp only [h, if_false, Bool.false_eq_true]
      exact (ih.cons y).trans (List.Perm.swap x y ys)

theorem perm_insertionSort (le : α → α → Bool) (l : List α) :
    (insertionSort le l).Perm l := by
  induction l with
  | nil => simp [insertionSort]
  | cons x xs ih =>
    exact (perm_insertSorted le x (insertionSort le xs)).trans (ih.cons x)

/-! ## Capacity parsing (`check_raw_scrapes.parse_capacity`)

The source searches the free-text occupancy string with the regular
expression `/(\d+)\s*persons?` and returns the captured integer group.
The model scans the character list left to right; at each position it
attempts the (backtracking-free, see below) match.  Greedy `\d+` and
`\s*` never need backtracking here because a digit can never start
`\s*person` and a whitespace character can never start `person`. The
optional trailing `s` cannot affect success or the captured group, so it
is not modelled. -/

/-- Characters matched by the regex class `\s`. -/
def isSpaceChar (c : Char) : Bool :=
  c == ' ' || c == '\t' || c == '\n' || c == '\r' || c == '\x0b' || c == '\x0c'

/-- Numeric value of a list of decimal digits. -/
def digitsToNat (ds : List Char) : Nat :=
  ds.foldl (fun a c => 10 * a + (c.toNat - '0'.toNat)) 0

/-- Attempt to match `/(\d+)\s*person` at the head of `l`, returning the
captured group. -/
def tryCapMatch (l : List Char) : Option Nat :=
  match l with
  | [] => none
  | c :: rest =>
    if c = '/' then
      let ds := rest.takeWhile Char.isDigit
      if ds.isEmpty then none
      else
        let afterDigits := rest.dropWhile Char.isDigit
        let afterSpaces := afterDigits.dropWhile isSpaceChar
        if List.isPrefixOf "person".toList afterSpaces then some (digitsToNat ds)
        else none
    else none

/-- Leftmost search for the pattern, as `re.search` does. -/
def searchCap : List Char → Option Nat
  | [] => none
  | c :: rest =>
    match tryCapMatch (c :: rest) with
    | some v => some v
    | none => searchCap rest

/-- Embedding of `parse_capacity(raw_occupancy)`.  `None` and the empty
string are falsy in Python and return `None` before the regex runs. -/
def parse_capacity (raw_occupancy : Option String) : Option Nat :=
  match raw_occupancy with
  | none => none
  | some s => if s = "" then none else searchCap s.toList

/-- Declarative statement that the code's pattern `/(\d+)\s*person`
occurs somewhere in `l` (digits BEFORE the slash are not required). -/
def codeCapPattern (l : List Char) : Prop :=
  ∃ pre ds sp post, l = pre ++ '/' :: (ds ++ (sp ++ ("person".toList ++ post))) ∧
    ds ≠ [] ∧ (∀ c ∈ ds, c.isDigit = true) ∧ (∀ c ∈ sp, isSpaceChar c = true)

/-- Check of the pattern the SPEC claims — `<digits>/<digits> person` —
at the head of a suffix, with maximal-munch components. Modelled from the
spec: a substring of the form digits, slash, digits, optional whitespace,
then `person`. -/
def specCapTryAt (l : List Char) : Bool :=
  let d1 := l.takeWhile Char.isDigit
  if d1.isEmpty then false
  else
    match l.dropWhile Char.isDigit with
    | '/' :: rest =>
      let d2 := rest.takeWhile Char.isDigit
      if d2.isEmpty then false
      else
        let afterSp := (rest.dropWhile Char.isDigit).dropWhile isSpaceChar
        List.isPrefixOf "person".toList afterSp
    | _ => false

/-- Modelled from the spec: the input contains a substring of the form
`<digits>/<digits> person(s)` with optional surrounding whitespace. -/
def specCapPattern : List Char → Bool
  | [] => false
  | c :: rest => specCapTryAt (c :: rest) || specCapPattern rest

theorem isSpaceChar_not_digit {c : Char} (h : isSpaceChar c = true) :
    c.isDigit = false := by
  simp only [isSpaceChar, Bool.or_eq_true, beq_iff_eq] at h
  rcases h with ((((h | h) | h) | h) | h) | h <;> subst h <;> decide

theorem takeWhile_dropWhile_append (p : α → Bool) (xs ys : List α)
    (hx : ∀ c ∈ xs, p c = true) (hy : ∀ y ∈ ys.head?, p y = false) :
    (xs ++ ys).takeWhile p = xs ∧ (xs ++ ys).dropWhile p = ys := by
  induction xs with
  | nil =>
    simp only [List.nil_append]
    cases ys with
    | nil => simp
    | cons y t =>
      have hpy := hy y (by simp)
      simp [List.takeWhile, List.dropWhile, hpy]
  | cons x xs ih =>
    have hpx : p x = true := hx x (by simp)
    have hrec := ih (fun c hc => hx c (by simp [hc]))
    simp [List.takeWhile, List.dropWhile, hpx, hrec.1, hrec.2]

theorem personList_eq : "person".toList = ['p', 'e', 'r', 's', 'o', 'n'] := rfl

theorem tryCapMatch_eq_some_iff (l : List Char) (v : Nat) :
    tryCapMatch l = some v ↔
      ∃ ds sp post, l = '/' :: (ds ++ (sp ++ ("person".toList ++ post))) ∧
        ds ≠ [] ∧ (∀ c ∈ ds, c.isDigit = true) ∧
        (∀ c ∈ sp, isSpaceChar c = true) ∧ v = digitsToNat ds := by
  constructor
  · intro h
    match l with
    | [] => simp [tryCapMatch] at h
    | c :: rest =>
      simp only [tryCapMatch] at h
      by_cases hc : c = '/'
      · rw [if_pos hc] at h
        subst hc
        by_cases hds : (rest.takeWhile Char.isDigit).isEmpty = true
        · rw [if_pos hds] at h; exact absurd h (by simp)
        · rw [if_neg hds] at h
          by_cases hpre : List.isPrefixOf "person".toList
              ((rest.dropWhile Char.isDigit).dropWhile isSpaceChar) = true
          · rw [if_pos hpre] at h
            have hv : digitsToNat (rest.takeWhile Char.isDigit) = v :=
              Option.some.inj h
            rw [List.isPrefixOf_iff_prefix] at hpre
            obtain ⟨post, hpost⟩ := hpre
            refine ⟨rest.takeWhile Char.isDigit,
              (rest.dropWhile Char.isDigit).takeWhile isSpaceChar, post,
              ?_, ?_, ?_, ?_, hv.symm⟩
            · rw [hpost, List.takeWhile_append_dropWhile,
                List.takeWhile_append_dropWhile]
            · simpa [List.isEmpty_iff] using hds
            · intro x hx; exact List.mem_takeWhile_imp hx
            · intro x hx; exact List.mem_takeWhile_imp hx
          · rw [if_neg hpre] at h; exact absurd h (by simp)
      · rw [if_neg hc] at h; exact absurd h (by simp)
  · rintro ⟨ds, sp, post, hl, hne, hds, hsp, hv⟩
    subst hl
    have hhead1 : ∀ y ∈ (sp ++ ("person".toList ++ post)).head?,
        Char.isDigit y = false := by
      intro y hy
      cases sp with
      | nil =>
        rw [List.nil_append, personList_eq] at hy
        have hyp : y = 'p' := by simpa [eq_comm] using hy
        subst hyp; decide
      | cons a t =>
        have hya : y = a := by simpa [eq_comm] using hy
        subst hya
        exact isSpaceChar_not_digit (hsp y (by simp))
    have hstep1 := takeWhile_dropWhile_append Char.isDigit ds
      (sp ++ ("person".toList ++ post)) hds hhead1
    have hhead2 : ∀ y ∈ ("person".toList ++ post).head?, isSpaceChar y = false := by
      intro y hy
      rw [personList_eq] at hy
      have hyp : y = 'p' := by simpa [eq_comm] using hy
      subst hyp; decide
    have hstep2 := takeWhile_dropWhile_append isSpaceChar sp
      ("person".toList ++ post) hsp hhead2
    have hprefix : List.isPrefixOf "person".toList ("person".toList ++ post) = true := by
      rw [List.isPrefixOf_iff_prefix]; exact List.prefix_append _ _
    have hdsne : ((ds ++ (sp ++ ("person".toList ++ post))).takeWhile
        Char.isDigit).isEmpty = false := by
      rw [hstep1.1]; simpa [List.isEmpty_iff] using hne
    simp only [tryCapMatch, if_pos rfl, hdsne, Bool.false_eq_true, if_false,
      hstep1.1, hstep1.2, hstep2.2, if_pos hprefix, hv]
    simp [List.isEmpty_iff, hne]

theorem searchCap_eq_some_iff (l : List Char) :
    (∃ v, searchCap l = some v) ↔
      ∃ pre suf v, l = pre ++ suf ∧ tryCapMatch suf = some v := by
  induction l with
  | nil =>
    simp only [searchCap]
    constructor
    · rintro ⟨v, hv⟩; exact absurd hv (by simp)
    · rintro ⟨pre, suf, v, hl, hm⟩
      have hpre : pre = [] := by
        cases pre with
        | nil => rfl
        | cons a b => simp at hl
      subst hpre
      simp only [List.nil_append] at hl
      subst hl
      simp [tryCapMatch] at hm
  | cons c rest ih =>
    constructor
    · rintro ⟨v, hv⟩
      simp only [searchCap] at hv
      cases hm : tryCapMatch (c :: rest) with
      | some w => exact ⟨[], c :: rest, w, by simp, hm⟩
      | none =>
        rw [hm] at hv
        obtain ⟨pre, suf, w, hl, hms⟩ := ih.1 ⟨v, hv⟩
        exact ⟨c :: pre, suf, w, by simp [hl], hms⟩
    · rintro ⟨pre, suf, v, hl, hm⟩
      cases pre with
      | nil =>
        simp only [List.nil_append] at hl
        subst hl
        exact ⟨v, by simp [searchCap, hm]⟩
      | cons a b =>
        rw [List.cons_append, List.cons.injEq] at hl
        obtain ⟨ha, hb⟩ := hl
        subst ha
        obtain ⟨w, hw⟩ := ih.2 ⟨b, suf, v, hb, hm⟩
        cases hmm : tryCapMatch (c :: rest) with
        | some u => exact ⟨u, by simp [searchCap, hmm]⟩
        | none => exact ⟨w, by simp [searchCap, hmm, hw]⟩

theorem codeCapPattern_iff_search (l : List Char) :
    codeCapPattern l ↔ ∃ v, searchCap l = some v := by
  rw [searchCap_eq_some_iff]
  constructor
  · rintro ⟨pre, ds, sp, post, hl, hne, hds, hsp⟩
    exact ⟨pre, '/' :: (ds ++ (sp ++ ("person".toList ++ post))), digitsToNat ds, hl,
      (tryCapMatch_eq_some_iff _ _).2 ⟨ds, sp, post, rfl, hne, hds, hsp, rfl⟩⟩
  · rintro ⟨pre, suf, v, hl, hm⟩
    obtain ⟨ds, sp, post, hsuf, hne, hds, hsp, hv⟩ := (tryCapMatch_eq_some_iff _ _).1 hm
    exact ⟨pre, ds, sp, post, by rw [hl, hsuf], hne, hds, hsp⟩

/-- Claim C5 (counterexample): the claim says every input that does NOT contain a
substring of the form `<digits>/<digits> person(s)` is unparseable, but the
source regex `/(\d+)\s*persons?` does not require digits before the slash:
on `"abc/42 persons"` (which contains no `<digits>/<digits>` substring)
`parse_capacity` returns `42`, not `None`. -/
theorem parse_capacity_claim_counterexample :
    specCapPattern "abc/42 persons".toList = false ∧
    parse_capacity (some "abc/42 persons") = some 42 :=
  ⟨by decide, by decide⟩

/-- Claim C5 (amended): `parse_capacity` returns the integer captured by the first
occurrence of `/(\d+)\s*person(s?)` — digits before the slash are NOT
required and arbitrary text may follow — and returns `None` exactly when no
such occurrence exists, including for `None` and the empty string.  The
spec examples hold: `"57/311 persons"` gives 311, `"1/100 person"` gives
100, and `None`, `""`, `"garbage"` are unparseable. -/
theorem parse_capacity_amended :
    parse_capacity (some "57/311 persons") = some 311 ∧
    parse_capacity (some "1/100 person") = some 100 ∧
    parse_capacity none = none ∧
    parse_capacity (some "") = none ∧
    parse_capacity (some "garbage") = none ∧
    ∀ s : String, (parse_capacity (some s) = none ↔ ¬ codeCapPattern s.toList) := by
  refine ⟨by decide, by decide, rfl, by decide, by decide, ?_⟩
  intro s
  by_cases hs : s = ""
  · subst hs
    constructor
    · intro _ hpat
      rw [codeCapPattern_iff_search] at hpat
      obtain ⟨v, hv⟩ := hpat
      have hnone : searchCap "".toList = none := rfl
      rw [hnone] at hv
      exact absurd hv (by simp)
    · intro _; rfl
  · simp only [parse_capacity, if_neg hs]
    rw [codeCapPattern_iff_search]
    constructor
    · rintro h ⟨v, hv⟩
      rw [h] at hv
      exact absurd hv (by simp)
    · intro h
      cases hsc : searchCap s.toList with
      | none => rfl
      | some v => exact absurd ⟨v, hsc⟩ h

/-! ## Raw snapshot auditor (`check_raw_scrapes.py`)

A scrape file is one JSON document; `load_scrapes_for_date` drops files
that fail to parse or lack `scrape_timestamp`, so a `Scrape` below always
carries its parsed timestamp (`_parsed_timestamp`, modelled in minutes).
`sections` are the top-level values that pass the facility-shape test
(non-empty list whose first element carries `facility_type`); values that
fail the test contribute nothing and are not modelled. -/

structure RawFacility where
  pool_name : String
  facility_type : String
  raw_occupancy : Option String
  timestamp : Int
deriving DecidableEq, Repr

/-- An element of the list built by `extract_facilities_from_scrape`
(the dict with keys `name`, `type`, `capacity`, `timestamp`). -/
structure ScrapeFacility where
  name : String
  ftype : String
  capacity : Option Nat
  timestamp : Int
deriving DecidableEq, Repr

structure Scrape where
  scrapeTimestamp : Int
  sections : List (List RawFacility)
deriving DecidableEq, Repr

def extract_facilities_from_scrape (s : Scrape) : List ScrapeFacility :=
  s.sections.flatMap (fun sec => sec.map (fun f =>
    { name := f.pool_name, ftype := f.facility_type,
      capacity := parse_capacity f.raw_occupancy, timestamp := f.timestamp }))

/-- A facility identity, the pair (facility_type, facility_name). -/
abbrev FacKey := String × String

/-- The `(fac["type"], fac["name"])` pairs accumulated over a scrape list
(`today_facilities`); a Python set is modelled by list membership. -/
def facKeysOfScrapes (scrapes : List Scrape) : List FacKey :=
  scrapes.flatMap (fun s =>
    (extract_facilities_from_scrape s).map (fun f => (f.ftype, f.name)))

/-- Remove duplicates from a list (models Python set uniqueness; which
occurrence survives is irrelevant because sets are unordered). -/
def dedupKeys [DecidableEq α] : List α → List α
  | [] => []
  | x :: xs => if x ∈ xs then dedupKeys xs else x :: dedupKeys xs

theorem mem_dedupKeys [DecidableEq α] (l : List α) (x : α) :
    x ∈ dedupKeys l ↔ x ∈ l := by
  induction l with
  | nil => simp [dedupKeys]
  | cons y ys ih =>
    simp only [dedupKeys]
    by_cases hy : y ∈ ys
    · rw [if_pos hy, ih]
      constructor
      · intro h; exact List.mem_cons_of_mem y h
      · intro h
        rcases List.mem_cons.1 h with h | h
        · subst h; exact hy
        · exact h
    · rw [if_neg hy]
      simp [List.mem_cons, ih]

theorem nodup_dedupKeys [DecidableEq α] (l : List α) : (dedupKeys l).Nodup := by
  induction l with
  | nil => simp [dedupKeys]
  | cons y ys ih =>
    simp only [dedupKeys]
    by_cases hy : y ∈ ys
    · rw [if_pos hy]; exact ih
    · rw [if_neg hy]
      exact List.Nodup.cons (fun h => hy ((mem_dedupKeys ys y).1 h)) ih

/-- Lexicographic tuple comparison, as Python `sorted` on string pairs. -/
def pairLe (a b : FacKey) : Bool :=
  decide (a.1 < b.1) || (decide (a.1 = b.1) && decide (a.2 ≤ b.2))

def sortKeys (l : List FacKey) : List FacKey := insertionSort pairLe l

theorem mem_sortKeys (l : List FacKey) (k : FacKey) :
    k ∈ sortKeys l ↔ k ∈ l :=
  (perm_insertionSort pairLe l).mem_iff

theorem nodup_sortKeys (l : List FacKey) (h : l.Nodup) : (sortKeys l).Nodup :=
  ((perm_insertionSort pairLe l).nodup_iff).2 h

/-- Minimum of the scrapes' parsed timestamps
(`min(s["_parsed_timestamp"] for s in today_scrapes)`). -/
def minScrapeTs : List Scrape → Int
  | [] => 0
  | s :: rest => rest.foldl (fun a t => min a t.scrapeTimestamp) s.scrapeTimestamp

/-- Maximum of the scrapes' parsed timestamps. -/
def maxScrapeTs : List Scrape → Int
  | [] => 0
  | s :: rest => rest.foldl (fun a t => max a t.scrapeTimestamp) s.scrapeTimestamp

def GAP_THRESHOLD_HOURS : Int := 2

def mkMissingIssue (count : Nat) (durMin : Int) (k : FacKey) : String :=
  "Missing facility: " ++ k.1 ++ ":" ++ k.2 ++ " (not seen in " ++
    toString count ++ " scrapes over " ++ toString durMin ++ ")"

/-- Embedding of `check_missing_facilities(today_scrapes, historical_facilities)`.
`historical` is the historical facility set given as a list of members. -/
def check_missing_facilities (today_scrapes : List Scrape)
    (historical : List FacKey) : List String :=
  if today_scrapes = [] then []
  else
    let today := facKeysOfScrapes today_scrapes
    let missing := dedupKeys (historical.filter (fun k => decide (k ∉ today)))
    if missing ≠ [] ∧ 8 ≤ today_scrapes.length then
      if GAP_THRESHOLD_HOURS * 60 ≤
          maxScrapeTs today_scrapes - minScrapeTs today_scrapes then
        (sortKeys missing).map (mkMissingIssue today_scrapes.length
          (maxScrapeTs today_scrapes - minScrapeTs today_scrapes))
      else []
    else []

/-- Claim C7: a facility in the historical set but absent from the union of
today's scrapes is reported if and only if today has at least 8 scrapes
and the elapsed time between the first and last scrape is at least 2
hours; when the gate fails nothing is reported, and when it passes the
issue list is exactly one `Missing facility: type:name` entry per missing
facility (a map over a duplicate-free key list). -/
theorem check_missing_facilities_correct (scrapes : List Scrape)
    (hist : List FacKey) :
    (scrapes.length < 8 → check_missing_facilities scrapes hist = []) ∧
    (8 ≤ scrapes.length →
      maxScrapeTs scrapes - minScrapeTs scrapes < GAP_THRESHOLD_HOURS * 60 →
      check_missing_facilities scrapes hist = []) ∧
    (8 ≤ scrapes.length →
      GAP_THRESHOLD_HOURS * 60 ≤ maxScrapeTs scrapes - minScrapeTs scrapes →
      ∃ keys : List FacKey, keys.Nodup ∧
        (∀ k, k ∈ keys ↔ (k ∈ hist ∧ k ∉ facKeysOfScrapes scrapes)) ∧
        check_missing_facilities scrapes hist =
          keys.map (mkMissingIssue scrapes.length
            (maxScrapeTs scrapes - minScrapeTs scrapes))) := by
  refine ⟨?_, ?_, ?_⟩
  · intro hlt
    by_cases hem : scrapes = []
    · simp [check_missing_facilities, hem]
    · simp only [check_missing_facilities, if_neg hem]
      rw [if_neg]
      intro hcond
      exact absurd hcond.2 (by omega)
  · intro h8 hdur
    have hne : scrapes ≠ [] := by
      intro h; rw [h] at h8; simp at h8
    simp only [check_missing_facilities, if_neg hne]
    split
    · rw [if_neg (not_le.2 hdur)]
    · rfl
  · intro h8 hdur
    have hne : scrapes ≠ [] := by
      intro h; rw [h] at h8; simp at h8
    refine ⟨sortKeys (dedupKeys (hist.filter
      (fun k => decide (k ∉ facKeysOfScrapes scrapes)))), ?_, ?_, ?_⟩
    · exact nodup_sortKeys _ (nodup_dedupKeys _)
    · intro k
      rw [mem_sortKeys, mem_dedupKeys, List.mem_filter]
      simp
    · simp only [check_missing_facilities, if_neg hne]
      by_cases hmiss : dedupKeys (hist.filter
          (fun k => decide (k ∉ facKeysOfScrapes scrapes))) ≠ []
      · rw [if_pos ⟨hmiss, h8⟩, if_pos hdur]
      · push_neg at hmiss
        rw [hmiss, if_neg (fun hcon => hcon.1 rfl)]
        rfl

/-- Ten 15-minute-cadence scrapes (2h15m span) that only ever see the pool
`Nordbad`: the worked example of the spec's missing-facility property. -/
def demoRawFac (t : Int) : RawFacility :=
  { pool_name := "Nordbad", facility_type := "pool",
    raw_occupancy := none, timestamp := t }

def demoScrapes : List Scrape :=
  [600, 615, 630, 645, 660, 675, 690, 705, 720, 735].map
    (fun t => { scrapeTimestamp := t, sections := [[demoRawFac t]] })

def demoHist : List FacKey := [("pool", "Nordbad"), ("pool", "Westbad")]

theorem check_missing_facilities_correct_witness :
    ∃ keys : List FacKey, keys.Nodup ∧
      (∀ k, k ∈ keys ↔ (k ∈ demoHist ∧ k ∉ facKeysOfScrapes demoScrapes)) ∧
      check_missing_facilities demoScrapes demoHist =
        keys.map (mkMissingIssue demoScrapes.length
          (maxScrapeTs demoScrapes - minScrapeTs demoScrapes)) :=
  (check_missing_facilities_correct demoScrapes demoHist).2.2 (by decide) (by decide)

/-! ## Capacity maps (`get_historical_capacities`, `check_capacity_changes`)

Both capacity maps are insertion-ordered dicts filled facility by facility
with `if fac["capacity"] and key not in capacities`; Python truthiness
makes a parsed capacity of `0` (and `None`) fail the guard. -/

/-- Dict lookup on an insertion-ordered association list. -/
def lookupCap (m : List (FacKey × Nat)) (k : FacKey) : Option Nat :=
  (m.find? (fun p => decide (p.1 = k))).map (fun p => p.2)

/-- One iteration of the capacity-dict loop:
`if fac["capacity"] and key not in capacities: capacities[key] = ...`. -/
def capStep (acc : List (FacKey × Nat)) (f : ScrapeFacility) :
    List (FacKey × Nat) :=
  match f.capacity with
  | none => acc
  | some v =>
    if v ≠ 0 ∧ lookupCap acc (f.ftype, f.name) = none then
      acc ++ [((f.ftype, f.name), v)]
    else acc

/-- The shared accumulation loop of `get_historical_capacities` and of the
`today_capacities` dict in `check_capacity_changes`. -/
def buildCapacities (facs : List ScrapeFacility) : List (FacKey × Nat) :=
  facs.foldl capStep []

/-- Embedding of `get_historical_capacities`; its input is the flattened
day-by-day, file-by-file scan order of the trailing 30 days of scrapes. -/
def get_historical_capacities (scrapes : List Scrape) : List (FacKey × Nat) :=
  buildCapacities (scrapes.flatMap extract_facilities_from_scrape)

def mkCapacityIssue (k : FacKey) (histCap todayCap : Nat) : String :=
  "Capacity change: " ++ k.1 ++ ":" ++ k.2 ++ " (" ++ toString histCap ++
    " -> " ++ toString todayCap ++ ")"

/-- The issue (if any) one `today_capacities` entry contributes:
`if key in historical_capacities: if today_cap != hist_cap: append`. -/
def capChangeEntry (historical : List (FacKey × Nat))
    (p : FacKey × Nat) : List String :=
  match lookupCap historical p.1 with
  | none => []
  | some histCap =>
    if histCap ≠ p.2 then [mkCapacityIssue p.1 histCap p.2] else []

/-- Embedding of `check_capacity_changes(today_scrapes, historical_capacities)`. -/
def check_capacity_changes (today_scrapes : List Scrape)
    (historical : List (FacKey × Nat)) : List String :=
  (buildCapacities (today_scrapes.flatMap extract_facilities_from_scrape)).flatMap
    (capChangeEntry historical)

/-- Declarative reading of the accumulation guard: the capacity recorded
for a facility key is the first parsed, nonzero capacity seen for it. -/
def firstNonzeroCap (facs : List ScrapeFacility) (k : FacKey) : Option Nat :=
  facs.findSome? (fun f =>
    match f.capacity with
    | none => none
    | some v => if (f.ftype, f.name) = k ∧ v ≠ 0 then some v else none)

/-- First-of-two-options combinator (dict lookups never overwrite). -/
def optFirst (a b : Option Nat) : Option Nat :=
  match a with
  | some v => some v
  | none => b

theorem lookupCap_append (m₁ m₂ : List (FacKey × Nat)) (k : FacKey) :
    lookupCap (m₁ ++ m₂) k = optFirst (lookupCap m₁ k) (lookupCap m₂ k) := by
  induction m₁ with
  | nil => simp [lookupCap, optFirst]
  | cons p m₁ ih =>
    by_cases hp : p.1 = k
    · simp [lookupCap, List.find?_cons, hp, optFirst]
    · simp only [List.cons_append, lookupCap, List.find?_cons, decide_eq_true_eq,
        hp, optFirst] at ih ⊢
      exact ih

theorem buildCapacities_foldl_lookup (facs : List ScrapeFacility)
    (k : FacKey) :
    ∀ acc, lookupCap (facs.foldl capStep acc) k =
      optFirst (lookupCap acc k) (firstNonzeroCap facs k) := by
  induction facs with
  | nil =>
    intro acc
    simp only [List.foldl_nil, firstNonzeroCap, List.findSome?_nil]
    cases lookupCap acc k <;> rfl
  | cons f facs ih =>
    intro acc
    rw [List.foldl_cons]
    cases hcap : f.capacity with
    | none =>
      have hstep : capStep acc f = acc := by simp [capStep, hcap]
      rw [hstep, ih acc]
      simp [firstNonzeroCap, List.findSome?_cons, hcap]
    | some v =>
      by_cases hguard : v ≠ 0 ∧ lookupCap acc (f.ftype, f.name) = none
      · have hstep : capStep acc f = acc ++ [((f.ftype, f.name), v)] := by
          simp only [capStep, hcap]
          rw [if_pos hguard]
        rw [hstep, ih (acc ++ [((f.ftype, f.name), v)])]
        rw [lookupCap_append]
        simp only [firstNonzeroCap, List.findSome?_cons, hcap]
        by_cases hk : (f.ftype, f.name) = k
        · rw [if_pos ⟨hk, hguard.1⟩]
          rw [hk] at hguard
          rw [hguard.2]
          have hone : lookupCap [((f.ftype, f.name), v)] k = some v := by
            simp [lookupCap, List.find?_cons, hk]
          rw [hone]
          cases hres : firstNonzeroCap facs k <;> rfl
        · rw [if_neg (fun hcon => hk hcon.1)]
          have hone : lookupCap [((f.ftype, f.name), v)] k = none := by
            simp [lookupCap, List.find?_cons, hk]
          rw [hone]
          cases hacc : lookupCap acc k <;>
            simp [optFirst, firstNonzeroCap]
      · have hstep : capStep acc f = acc := by
          simp only [capStep, hcap]
          rw [if_neg hguard]
        rw [hstep, ih acc]
        simp only [firstNonzeroCap, List.findSome?_cons, hcap]
        by_cases hk : (f.ftype, f.name) = k ∧ v ≠ 0
        · rw [if_pos hk]
          rcases hk with ⟨hk1, hv⟩
          have hlac : lookupCap acc (f.ftype, f.name) ≠ none := by
            intro hnone
            exact hguard ⟨hv, hnone⟩
          rw [hk1] at hlac
          cases hacc : lookupCap acc k with
          | none => exact absurd hacc hlac
          | some w => rfl
        · rw [if_neg hk]

theorem mem_buildCapacities_ne_zero (facs : List ScrapeFacility) :
    ∀ acc, (∀ p ∈ acc, (p : FacKey × Nat).2 ≠ 0) →
      ∀ p ∈ facs.foldl capStep acc, (p : FacKey × Nat).2 ≠ 0 := by
  induction facs with
  | nil => intro acc hacc; simpa using hacc
  | cons f facs ih =>
    intro acc hacc
    rw [List.foldl_cons]
    cases hcap : f.capacity with
    | none =>
      have hstep : capStep acc f = acc := by simp [capStep, hcap]
      rw [hstep]
      exact ih acc hacc
    | some v =>
      by_cases hguard : v ≠ 0 ∧ lookupCap acc (f.ftype, f.name) = none
      · have hstep : capStep acc f = acc ++ [((f.ftype, f.name), v)] := by
          simp only [capStep, hcap]
          rw [if_pos hguard]
        rw [hstep]
        refine ih _ ?_
        intro p hp
        rcases List.mem_append.1 hp with hp | hp
        · exact hacc p hp
        · have hpv : p = ((f.ftype, f.name), v) := by simpa using hp
          rw [hpv]
          exact hguard.1
      · have hstep : capStep acc f = acc := by
          simp only [capStep, hcap]
          rw [if_neg hguard]
        rw [hstep]
        exact ih acc hacc

/-- Claim C10: a parsed capacity of 0 is Python-falsy, so it is never recorded in
either capacity dict — for each facility the recorded value is the first
parsed NONZERO capacity — and consequently `check_capacity_changes` (run
against a historical map built by `get_historical_capacities`) never
reports a change whose historical or today side is 0. -/
theorem capacity_zero_never_recorded (histScrapes todayScrapes : List Scrape) :
    (∀ facs k, lookupCap (buildCapacities facs) k = firstNonzeroCap facs k) ∧
    (∀ k v, lookupCap (get_historical_capacities histScrapes) k = some v →
      v ≠ 0) ∧
    (∀ issue ∈ check_capacity_changes todayScrapes
        (get_historical_capacities histScrapes),
      ∃ k h c, issue = mkCapacityIssue k h c ∧ h ≠ 0 ∧ c ≠ 0 ∧ h ≠ c) := by
  have hlook : ∀ facs k, lookupCap (buildCapacities facs) k =
      firstNonzeroCap facs k := by
    intro facs k
    rw [buildCapacities, buildCapacities_foldl_lookup]
    rfl
  have hmem : ∀ facs p, p ∈ buildCapacities facs → (p : FacKey × Nat).2 ≠ 0 := by
    intro facs p hp
    exact mem_buildCapacities_ne_zero facs [] (by simp) p hp
  have hvals : ∀ (scrapes : List Scrape) k v,
      lookupCap (get_historical_capacities scrapes) k = some v → v ≠ 0 := by
    intro scrapes k v hv
    rw [get_historical_capacities] at hv
    obtain ⟨p, hfind⟩ : ∃ p, (buildCapacities
        (scrapes.flatMap extract_facilities_from_scrape)).find?
          (fun p => decide (p.1 = k)) = some p ∧ p.2 = v := by
      rw [lookupCap] at hv
      cases hf : (buildCapacities
          (scrapes.flatMap extract_facilities_from_scrape)).find?
            (fun p => decide (p.1 = k)) with
      | none => rw [hf] at hv; exact absurd hv (by simp)
      | some p =>
        rw [hf] at hv
        exact ⟨p, rfl, by simpa using hv⟩
    rw [← hfind.2]
    exact hmem _ p (List.mem_of_find?_eq_some hfind.1)
  refine ⟨hlook, hvals histScrapes, ?_⟩
  intro issue hissue
  simp only [check_capacity_changes, List.mem_flatMap] at hissue
  obtain ⟨p, hp, hin⟩ := hissue
  cases hlu : lookupCap (get_historical_capacities histScrapes) p.1 with
  | none =>
    have hentry : capChangeEntry (get_historical_capacities histScrapes) p = [] := by
      simp [capChangeEntry, hlu]
    rw [hentry] at hin
    exact absurd hin (by simp)
  | some histCap =>
    by_cases hne : histCap ≠ p.2
    · have hentry : capChangeEntry (get_historical_capacities histScrapes) p =
          [mkCapacityIssue p.1 histCap p.2] := by
        simp only [capChangeEntry, hlu]
        rw [if_pos hne]
      rw [hentry] at hin
      have hiss : issue = mkCapacityIssue p.1 histCap p.2 := by simpa using hin
      exact ⟨p.1, histCap, p.2, hiss, hvals histScrapes p.1 histCap hlu,
        hmem _ p hp, hne⟩
    · have hentry : capChangeEntry (get_historical_capacities histScrapes) p = [] := by
        simp only [capChangeEntry, hlu]
        rw [if_neg hne]
      rw [hentry] at hin
      exact absurd hin (by simp)

/-- Historical scrape seeing capacity 177 and today's scrape seeing 200 for
the same pool, the spec's capacity-change example. -/
def demoHistCapFac : RawFacility :=
  { pool_name := "Nordbad", facility_type := "pool",
    raw_occupancy := some "50/177 persons", timestamp := 0 }

def demoTodayCapFac : RawFacility :=
  { pool_name := "Nordbad", facility_type := "pool",
    raw_occupancy := some "50/200 persons", timestamp := 600 }

def demoHistCapScrape : Scrape :=
  { scrapeTimestamp := 0, sections := [[demoHistCapFac]] }

def demoTodayCapScrape : Scrape :=
  { scrapeTimestamp := 600, sections := [[demoTodayCapFac]] }

/-! ## Compiled-data auditor (`check_compiled_data.py`)

`check_extended_zero_occupancy` works on the persisted dataset restricted
to the trailing 48 hours; daytime is judged on the `hour` COLUMN of each
row (not recomputed from the timestamp), zero occupancy on
`occupancy_percent == 0`, and the flag on the span between the earliest
and latest zero reading of the (sorted) group. -/

structure CompiledRec where
  timestamp : Int
  facility_name : String
  facility_type : String
  occupancy_percent : Int
  hour : Int
deriving DecidableEq, Repr

def EXTENDED_ZERO_THRESHOLD_HOURS : Int := 8
def DAYTIME_START_HOUR : Int := 6
def DAYTIME_END_HOUR : Int := 22

def recKey (r : CompiledRec) : FacKey := (r.facility_type, r.facility_name)

/-- The trailing-48-hour window relative to wall-clock `now`. -/
def recentOf (df : List CompiledRec) (now : Int) : List CompiledRec :=
  df.filter (fun r => decide (now - 48 * 60 ≤ r.timestamp))

/-- Daytime restriction on the `hour` column. -/
def daytimeOf (l : List CompiledRec) : List CompiledRec :=
  l.filter (fun r =>
    decide (DAYTIME_START_HOUR ≤ r.hour) && decide (r.hour < DAYTIME_END_HOUR))

/-- The sorted distinct keys a pandas groupby on
(facility_type, facility_name) iterates over. -/
def groupKeys (l : List CompiledRec) : List FacKey :=
  sortKeys (dedupKeys (l.map recKey))

/-- Zero-occupancy records of one facility group. -/
def zeroRecordsOf (l : List CompiledRec) (k : FacKey) : List CompiledRec :=
  (l.filter (fun r => decide (recKey r = k))).filter
    (fun r => decide (r.occupancy_percent = 0))

def recLeTs (a b : CompiledRec) : Bool := decide (a.timestamp ≤ b.timestamp)

def mkZeroIssue (k : FacKey) (durMin : Int) : String :=
  "Extended zero occupancy: " ++ k.1 ++ ":" ++ k.2 ++ " at 0% for " ++
    toString durMin ++ " during daytime hours"

/-- Per-group loop body of `check_extended_zero_occupancy`: sort the zero
records by timestamp; fewer than two contribute nothing; otherwise flag
when last-minus-first reaches the threshold. -/
def extZeroGroupIssues (threshold_hours : Int) (zeros : List CompiledRec)
    (k : FacKey) : List String :=
  match insertionSort recLeTs zeros with
  | [] => []
  | [_] => []
  | z0 :: z1 :: rest =>
    if threshold_hours * 60 ≤ ((z1 :: rest).getLastD z1).timestamp - z0.timestamp
    then [mkZeroIssue k (((z1 :: rest).getLastD z1).timestamp - z0.timestamp)]
    else []

/-- Embedding of `check_extended_zero_occupancy(df, threshold_hours)`,
with wall-clock `now` made explicit. -/
def check_extended_zero_occupancy (df : List CompiledRec) (now : Int)
    (threshold_hours : Int) : List String :=
  if recentOf df now = [] then []
  else
    (groupKeys (daytimeOf (recentOf df now))).flatMap (fun k =>
      extZeroGroupIssues threshold_hours
        (zeroRecordsOf (daytimeOf (recentOf df now)) k) k)

/-- Earliest timestamp of a record list (fold min, spec side). -/
def minTsOfRecs : List CompiledRec → Int
  | [] => 0
  | r :: rest => rest.foldl (fun a x => min a x.timestamp) r.timestamp

/-- Latest timestamp of a record list (fold max, spec side). -/
def maxTsOfRecs : List CompiledRec → Int
  | [] => 0
  | r :: rest => rest.foldl (fun a x => max a x.timestamp) r.timestamp

/-- Span between earliest and latest zero reading of a facility in the
daytime-restricted trailing-48h window. -/
def zeroSpan (df : List CompiledRec) (now : Int) (k : FacKey) : Int :=
  maxTsOfRecs (zeroRecordsOf (daytimeOf (recentOf df now)) k) -
    minTsOfRecs (zeroRecordsOf (daytimeOf (recentOf df now)) k)

theorem foldl_min_spec (l : List CompiledRec) :
    ∀ init : Int,
      (l.foldl (fun a x => min a x.timestamp) init ≤ init ∧
       (∀ r ∈ l, l.foldl (fun a x => min a x.timestamp) init ≤ r.timestamp) ∧
       (l.foldl (fun a x => min a x.timestamp) init = init ∨
        ∃ r ∈ l, l.foldl (fun a x => min a x.timestamp) init = r.timestamp)) := by
  induction l with
  | nil => intro init; simp
  | cons x xs ih =>
    intro init
    rw [List.foldl_cons]
    obtain ⟨h1, h2, h3⟩ := ih (min init x.timestamp)
    refine ⟨le_trans h1 (min_le_left _ _), ?_, ?_⟩
    · intro r hr
      rcases List.mem_cons.1 hr with hr | hr
      · rw [hr] at *
        exact le_trans h1 (min_le_right _ _)
      · exact h2 r hr
    · rcases h3 with h3 | ⟨r, hr, h3⟩
      · rcases le_total init x.timestamp with hmin | hmin
        · left; rw [h3]; exact min_eq_left hmin
        · right
          exact ⟨x, by simp, by rw [h3]; exact min_eq_right hmin⟩
      · exact Or.inr ⟨r, List.mem_cons_of_mem x hr, h3⟩

theorem foldl_max_spec (l : List CompiledRec) :
    ∀ init : Int,
      (init ≤ l.foldl (fun a x => max a x.timestamp) init ∧
       (∀ r ∈ l, r.timestamp ≤ l.foldl (fun a x => max a x.timestamp) init) ∧
       (l.foldl (fun a x => max a x.timestamp) init = init ∨
        ∃ r ∈ l, l.foldl (fun a x => max a x.timestamp) init = r.timestamp)) := by
  induction l with
  | nil => intro init; simp
  | cons x xs ih =>
    intro init
    rw [List.foldl_cons]
    obtain ⟨h1, h2, h3⟩ := ih (max init x.timestamp)
    refine ⟨le_trans (le_max_left _ _) h1, ?_, ?_⟩
    · intro r hr
      rcases List.mem_cons.1 hr with hr | hr
      · rw [hr] at *
        exact le_trans (le_max_right _ _) h1
      · exact h2 r hr
    · rcases h3 with h3 | ⟨r, hr, h3⟩
      · rcases le_total init x.timestamp with hmax | hmax
        · right
          exact ⟨x, by simp, by rw [h3]; exact max_eq_right hmax⟩
        · left; rw [h3]; exact max_eq_left hmax
      · exact Or.inr ⟨r, List.mem_cons_of_mem x hr, h3⟩

theorem minTsOfRecs_spec (l : List CompiledRec) (hne : l ≠ []) :
    (∀ r ∈ l, minTsOfRecs l ≤ r.timestamp) ∧
    (∃ r ∈ l, minTsOfRecs l = r.timestamp) := by
  match l with
  | [] => exact absurd rfl hne
  | x :: xs =>
    obtain ⟨h1, h2, h3⟩ := foldl_min_spec xs x.timestamp
    refine ⟨?_, ?_⟩
    · intro r hr
      rcases List.mem_cons.1 hr with hr | hr
      · rw [hr] at *; exact h1
      · exact h2 r hr
    · rcases h3 with h3 | ⟨r, hr, h3⟩
      · exact ⟨x, by simp, h3⟩
      · exact ⟨r, List.mem_cons_of_mem x hr, h3⟩

theorem maxTsOfRecs_spec (l : List CompiledRec) (hne : l ≠ []) :
    (∀ r ∈ l, r.timestamp ≤ maxTsOfRecs l) ∧
    (∃ r ∈ l, maxTsOfRecs l = r.timestamp) := by
  match l with
  | [] => exact absurd rfl hne
  | x :: xs =>
    obtain ⟨h1, h2, h3⟩ := foldl_max_spec xs x.timestamp
    refine ⟨?_, ?_⟩
    · intro r hr
      rcases List.mem_cons.1 hr with hr | hr
      · rw [hr] at *; exact h1
      · exact h2 r hr
    · rcases h3 with h3 | ⟨r, hr, h3⟩
      · exact ⟨x, by simp, h3⟩
      · exact ⟨r, List.mem_cons_of_mem x hr, h3⟩

theorem pairwise_insertSorted_ts (x : CompiledRec) (l : List CompiledRec)
    (h : l.Pairwise (fun a b => a.timestamp ≤ b.timestamp)) :
    (insertSorted recLeTs x l).Pairwise
      (fun a b => a.timestamp ≤ b.timestamp) := by
  induction l with
  | nil => simp [insertSorted]
  | cons y ys ih =>
    rw [List.pairwise_cons] at h
    obtain ⟨hy, hys⟩ := h
    simp only [insertSorted]
    by_cases hle : recLeTs x y = true
    · rw [if_pos hle]
      have hxy : x.timestamp ≤ y.timestamp := by
        simpa [recLeTs] using hle
      rw [List.pairwise_cons]
      refine ⟨?_, List.pairwise_cons.2 ⟨hy, hys⟩⟩
      intro b hb
      rcases List.mem_cons.1 hb with hb | hb
      · rw [hb]; exact hxy
      · exact le_trans hxy (hy b hb)
    · rw [if_neg hle]
      have hyx : y.timestamp ≤ x.timestamp := by
        have : ¬ x.timestamp ≤ y.timestamp := by
          simpa [recLeTs] using hle
        omega
      rw [List.pairwise_cons]
      refine ⟨?_, ih hys⟩
      intro b hb
      have hb2 : b ∈ x :: ys := (perm_insertSorted recLeTs x ys).mem_iff.1 hb
      rcases List.mem_cons.1 hb2 with hb2 | hb2
      · rw [hb2]; exact hyx
      · exact hy b hb2

theorem pairwise_insertionSort_ts (l : List CompiledRec) :
    (insertionSort recLeTs l).Pairwise
      (fun a b => a.timestamp ≤ b.timestamp) := by
  induction l with
  | nil => simp [insertionSort]
  | cons x xs ih => exact pairwise_insertSorted_ts x (insertionSort recLeTs xs) ih

theorem getLastD_le_of_pairwise :
    ∀ (t : List CompiledRec) (z : CompiledRec),
      (z :: t).Pairwise (fun a b => a.timestamp ≤ b.timestamp) →
      ∀ a ∈ z :: t, a.timestamp ≤ (t.getLastD z).timestamp := by
  intro t
  induction t with
  | nil =>
    intro z _ a ha
    have : a = z := by simpa using ha
    rw [this]
    rfl
  | cons z2 t2 ih =>
    intro z hp a ha
    rw [List.pairwise_cons] at hp
    obtain ⟨hz, hp2⟩ := hp
    have hlast : (z2 :: t2).getLastD z = t2.getLastD z2 :=
      List.getLastD_cons z z2 t2
    rw [hlast]
    rcases List.mem_cons.1 ha with ha | ha
    · rw [ha]
      exact le_trans (hz z2 (by simp)) (ih z2 hp2 z2 (by simp))
    · exact ih z2 hp2 a ha

theorem getLastD_mem : ∀ (t : List CompiledRec) (z : CompiledRec),
    t.getLastD z ∈ z :: t := by
  intro t
  induction t with
  | nil => intro z; simp [List.getLastD]
  | cons z2 t2 ih =>
    intro z
    have hlast : (z2 :: t2).getLastD z = t2.getLastD z2 :=
      List.getLastD_cons z z2 t2
    rw [hlast]
    rcases List.mem_cons.1 (ih z2) with h | h
    · rw [h]
      exact List.mem_cons_of_mem z (List.mem_cons_self z2 t2)
    · exact List.mem_cons_of_mem z (List.mem_cons_of_mem z2 h)

/-- On a group with at least two zero records, the sorted list's first and
last timestamps are the fold-min and fold-max of the zero records. -/
theorem extZeroGroupIssues_eq (threshold_hours : Int)
    (zeros : List CompiledRec) (k : FacKey) :
    extZeroGroupIssues threshold_hours zeros k =
      if 2 ≤ zeros.length ∧
          threshold_hours * 60 ≤ maxTsOfRecs zeros - minTsOfRecs zeros then
        [mkZeroIssue k (maxTsOfRecs zeros - minTsOfRecs zeros)]
      else [] := by
  have hperm := perm_insertionSort recLeTs zeros
  unfold extZeroGroupIssues
  cases hs : insertionSort recLeTs zeros with
  | nil =>
    have hz : zeros = [] := by
      have := hperm.length_eq
      rw [hs] at this
      exact List.length_eq_zero.1 this.symm
    rw [hz]
    rw [if_neg (by simp)]
  | cons z0 t =>
    cases t with
    | nil =>
      have hlen : zeros.length = 1 := by
        have := hperm.length_eq
        rw [hs] at this
        exact this.symm
      rw [if_neg (by omega)]
    | cons z1 rest =>
      have hlen : 2 ≤ zeros.length := by
        have := hperm.length_eq
        rw [hs] at this
        simp only [List.length_cons] at this
        omega
      have hzne : zeros ≠ [] := by
        intro h; rw [h] at hlen; simp at hlen
      have hpw := pairwise_insertionSort_ts zeros
      rw [hs] at hpw hperm
      have hmemiff : ∀ a, a ∈ z0 :: z1 :: rest ↔ a ∈ zeros := fun a => hperm.mem_iff
      obtain ⟨hminle, hminmem⟩ := minTsOfRecs_spec zeros hzne
      obtain ⟨hmaxle, hmaxmem⟩ := maxTsOfRecs_spec zeros hzne
      have hz0le : ∀ b ∈ z1 :: rest, z0.timestamp ≤ b.timestamp :=
        (List.pairwise_cons.1 hpw).1
      have hpw2 : (z1 :: rest).Pairwise (fun a b => a.timestamp ≤ b.timestamp) :=
        (List.pairwise_cons.1 hpw).2
      have hz0min : z0.timestamp = minTsOfRecs zeros := by
        have hle1 : minTsOfRecs zeros ≤ z0.timestamp :=
          hminle z0 ((hmemiff z0).1 (by simp))
        obtain ⟨r, hr, hrts⟩ := hminmem
        have hr2 : r ∈ z0 :: z1 :: rest := (hmemiff r).2 hr
        have hle2 : z0.timestamp ≤ r.timestamp := by
          rcases List.mem_cons.1 hr2 with h | h
          · rw [h]
          · exact hz0le r h
        omega
      have hgl : (z1 :: rest).getLastD z1 = rest.getLastD z1 :=
        List.getLastD_cons z1 z1 rest
      have hlastmax : ((z1 :: rest).getLastD z1).timestamp = maxTsOfRecs zeros := by
        rw [hgl]
        have hbound := getLastD_le_of_pairwise rest z1 hpw2
        have hlm : rest.getLastD z1 ∈ z1 :: rest := getLastD_mem rest z1
        have hle1 : (rest.getLastD z1).timestamp ≤ maxTsOfRecs zeros :=
          hmaxle _ ((hmemiff _).1 (List.mem_cons_of_mem z0 hlm))
        obtain ⟨r, hr, hrts⟩ := hmaxmem
        have hr2 : r ∈ z0 :: z1 :: rest := (hmemiff r).2 hr
        have hle2 : r.timestamp ≤ (rest.getLastD z1).timestamp := by
          rcases List.mem_cons.1 hr2 with h | h
          · rw [h]
            exact le_trans (hz0le z1 (by simp)) (hbound z1 (by simp))
          · exact hbound r h
        omega
      show (if threshold_hours * 60 ≤
            ((z1 :: rest).getLastD z1).timestamp - z0.timestamp then
          [mkZeroIssue k (((z1 :: rest).getLastD z1).timestamp - z0.timestamp)]
        else []) =
        if 2 ≤ zeros.length ∧
            threshold_hours * 60 ≤ maxTsOfRecs zeros - minTsOfRecs zeros then
          [mkZeroIssue k (maxTsOfRecs zeros - minTsOfRecs zeros)]
        else []
      rw [hz0min, hlastmax]
      by_cases hcond : threshold_hours * 60 ≤ maxTsOfRecs zeros - minTsOfRecs zeros
      · rw [if_pos hcond, if_pos ⟨hlen, hcond⟩]
      · rw [if_neg hcond, if_neg (fun hcon => hcond hcon.2)]

theorem flatMap_eq_filter_map (keys : List FacKey) (f : FacKey → List String)
    (cond : FacKey → Bool) (g : FacKey → String)
    (h : ∀ k ∈ keys, f k = if cond k = true then [g k] else []) :
    keys.flatMap f = (keys.filter cond).map g := by
  induction keys with
  | nil => simp
  | cons k ks ih =>
    have hrec := ih (fun x hx => h x (List.mem_cons_of_mem k hx))
    have hk := h k (List.mem_cons_self k ks)
    by_cases hc : cond k = true
    · rw [List.flatMap_cons, hk, if_pos hc,
        List.filter_cons_of_pos (by simpa using hc), List.map_cons, hrec]
      rfl
    · rw [List.flatMap_cons, hk, if_neg hc,
        List.filter_cons_of_neg (by simpa using hc), hrec]
      rfl

/-- Claim C6: restricted to records of the trailing 48 hours whose `hour` column
lies in [6, 22), grouped by (facility_type, facility_name), a facility is
flagged — exactly one issue naming it, via a map over a duplicate-free key
list — if and only if it has two or more zero-occupancy readings whose
earliest and latest timestamps are at least 8 hours apart.  Only the zero
records' min and max timestamps enter, so intervening non-zero readings do
not prevent the flag, while nighttime zeros are excluded by the hour
filter and a span under 8 hours yields no issue. -/
theorem check_extended_zero_occupancy_correct (df : List CompiledRec)
    (now : Int) :
    ∃ keys : List FacKey, keys.Nodup ∧
      (∀ k, k ∈ keys ↔
        (2 ≤ (zeroRecordsOf (daytimeOf (recentOf df now)) k).length ∧
          EXTENDED_ZERO_THRESHOLD_HOURS * 60 ≤ zeroSpan df now k)) ∧
      check_extended_zero_occupancy df now EXTENDED_ZERO_THRESHOLD_HOURS =
        keys.map (fun k => mkZeroIssue k (zeroSpan df now k)) := by
  refine ⟨(groupKeys (daytimeOf (recentOf df now))).filter (fun k =>
    decide (2 ≤ (zeroRecordsOf (daytimeOf (recentOf df now)) k).length) &&
    decide (EXTENDED_ZERO_THRESHOLD_HOURS * 60 ≤ zeroSpan df now k)),
    ?_, ?_, ?_⟩
  · exact List.Nodup.filter _ (nodup_sortKeys _ (nodup_dedupKeys _))
  · intro k
    rw [List.mem_filter]
    constructor
    · rintro ⟨hmem, hcond⟩
      simpa using hcond
    · rintro ⟨hlen, hspan⟩
      refine ⟨?_, by simp [hlen, hspan]⟩
      have hzne : zeroRecordsOf (daytimeOf (recentOf df now)) k ≠ [] := by
        intro h; rw [h] at hlen; simp at hlen
      obtain ⟨r, hr⟩ := List.exists_mem_of_ne_nil _ hzne
      rw [zeroRecordsOf, List.mem_filter, List.mem_filter] at hr
      obtain ⟨⟨hrd, hrk⟩, _⟩ := hr
      rw [groupKeys, mem_sortKeys, mem_dedupKeys, List.mem_map]
      exact ⟨r, hrd, by simpa using hrk⟩
  · unfold check_extended_zero_occupancy
    by_cases hrec : recentOf df now = []
    · rw [if_pos hrec, hrec]
      rfl
    · rw [if_neg hrec]
      refine flatMap_eq_filter_map _ _ _ _ ?_
      intro k hk
      rw [extZeroGroupIssues_eq]
      by_cases hcond :
          2 ≤ (zeroRecordsOf (daytimeOf (recentOf df now)) k).length ∧
          EXTENDED_ZERO_THRESHOLD_HOURS * 60 ≤
            maxTsOfRecs (zeroRecordsOf (daytimeOf (recentOf df now)) k) -
            minTsOfRecs (zeroRecordsOf (daytimeOf (recentOf df now)) k)
      · rw [if_pos hcond, if_pos]
        · rfl
        · have hspan : EXTENDED_ZERO_THRESHOLD_HOURS * 60 ≤
              zeroSpan df now k := hcond.2
          simp [hcond.1, hspan]
      · rw [if_neg hcond, if_neg]
        intro hcon
        have hcon2 := by simpa using hcon
        exact hcond ⟨hcon2.1, hcon2.2⟩

theorem capacity_zero_never_recorded_witness :
    ∃ k h c, "Capacity change: pool:Nordbad (177 -> 200)" =
      mkCapacityIssue k h c ∧ h ≠ 0 ∧ c ≠ 0 ∧ h ≠ c := by
  have hrun : check_capacity_changes [demoTodayCapScrape]
      (get_historical_capacities [demoHistCapScrape]) =
      ["Capacity change: pool:Nordbad (177 -> 200)"] := rfl
  refine (capacity_zero_never_recorded [demoHistCapScrape]
    [demoTodayCapScrape]).2.2 _ ?_
  rw [hrun]
  exact List.mem_singleton.2 rfl

/-! ## Merge pipeline (`transform.py`)

`load_pool_data` reads each `pool_data_*.json` file; a file whose JSON
fails to parse is skipped with a warning (`except json.JSONDecodeError`),
modelled as `Option.none` at the file level.  A parsed document carries an
OPTIONAL `scrape_timestamp` (absent / null / empty string are all falsy
and modelled `none`) and its facility sections.  Feature enrichment
(`merge_features`) copies calendar and weather features from library
oracles (a `FeatureCtx`) into non-key columns.  Validation and the final
merge then work on full rows. -/

/-- A facility object inside one raw pool snapshot document. -/
structure PoolFacility where
  pool_name : String
  facility_type : String
  timestamp : Int
  occupancy_percent : Int
  is_open : Option Bool
  hour : Int
  day_of_week : Int
  is_weekend : Bool
deriving DecidableEq, Repr

/-- One parsed `pool_data_*.json` document. `sections` are the top-level
values passing the facility-shape test. -/
structure PoolDoc where
  scrape_timestamp : Option Int
  sections : List (List PoolFacility)
deriving DecidableEq, Repr

/-- A raw file on disk: `none` when `json.load` raises. -/
abbrev PoolFile := Option PoolDoc

/-- A row of the DataFrame that `load_pool_data` builds. -/
structure BaseRec where
  timestamp : Int
  facility_name : String
  facility_type : String
  occupancy_percent : Int
  is_open : Nat
  hour : Int
  day_of_week : Int
  is_weekend : Nat
deriving DecidableEq, Repr

/-- Embedding of `resolve_facility_alias(facility_name, facility_type,
aliases)`: type-aware lookup, identity when no alias exists. -/
def resolve_facility_alias (facility_name facility_type : String)
    (aliases : List (String × String)) : String :=
  match aliases.find? (fun p => decide (p.1 = facility_type ++ ":" ++ facility_name)) with
  | some p => p.2
  | none => facility_name

/-- The record appended for one facility object: note the Python
binarization `1 if facility.get("is_open") else 0` (truthiness): `None`
(unknown) and `False` (closed) both become 0. -/
def mkBaseRec (aliases : List (String × String)) (f : PoolFacility) : BaseRec :=
  { timestamp := f.timestamp,
    facility_name := resolve_facility_alias f.pool_name f.facility_type aliases,
    facility_type := f.facility_type,
    occupancy_percent := f.occupancy_percent,
    is_open := match f.is_open with
      | some true => 1
      | _ => 0,
    hour := f.hour,
    day_of_week := f.day_of_week,
    is_weekend := if f.is_weekend then 1 else 0 }

/-- All records of one document, section by section. -/
def extractPoolDoc (aliases : List (String × String)) (d : PoolDoc) :
    List BaseRec :=
  d.sections.flatMap (fun sec => sec.map (mkBaseRec aliases))

/-- The records one file contributes in one `load_pool_data` loop
iteration: malformed files are skipped; the `since` filter runs only when
both `since` and the file's `scrape_timestamp` are truthy, and skips the
file when the latter is strictly before `since`. -/
def loadFileRecords (aliases : List (String × String)) (since : Option Int)
    (f : PoolFile) : List BaseRec :=
  match f with
  | none => []
  | some d =>
    match since, d.scrape_timestamp with
    | some s, some ts => if ts < s then [] else extractPoolDoc aliases d
    | _, _ => extractPoolDoc aliases d

/-- Embedding of `load_pool_data(input_dir, since, aliases)` over the
sorted file list. -/
def load_pool_data (files : List PoolFile) (since : Option Int)
    (aliases : List (String × String)) : List BaseRec :=
  files.flatMap (loadFileRecords aliases since)

/-- A row of the merged / persisted dataset. -/
structure Row where
  timestamp : Int
  facility_name : String
  facility_type : String
  occupancy_percent : Int
  is_open : Nat
  hour : Int
  day_of_week : Int
  is_weekend : Nat
  month : Int
  is_holiday : Nat
  is_school_vacation : Nat
  temperature_c : Option Int
  precipitation_mm : Option Int
  weather_code : Option Int
  cloud_cover_percent : Option Int
  data_source : String
deriving DecidableEq, Repr

/-- Library-provided feature oracles: `pandas .dt.month`, the two holiday
predicates of `holiday_loader`, and the weather index built by
`load_weather_data` keyed on the hour floor. -/
structure FeatureCtx where
  monthOf : Int → Int
  isPublicHoliday : Int → Bool
  isSchoolVacation : Int → Bool
  weatherAt : Int → Option (Int × Int × Int × Int)

/-- Hour floor of a minutes-based timestamp (`ts.floor("h")`). -/
def hourFloor (ts : Int) : Int := ts - ts % 60

/-- Embedding of `merge_features` for one record: month, holiday,
school-vacation and hour-floor weather features are attached; missing
weather degrades to nulls. -/
def merge_features (ctx : FeatureCtx) (r : BaseRec) : Row :=
  { timestamp := r.timestamp,
    facility_name := r.facility_name,
    facility_type := r.facility_type,
    occupancy_percent := r.occupancy_percent,
    is_open := r.is_open,
    hour := r.hour,
    day_of_week := r.day_of_week,
    is_weekend := r.is_weekend,
    month := ctx.monthOf r.timestamp,
    is_holiday := if ctx.isPublicHoliday r.timestamp then 1 else 0,
    is_school_vacation := if ctx.isSchoolVacation r.timestamp then 1 else 0,
    temperature_c := (ctx.weatherAt (hourFloor r.timestamp)).map (fun w => w.1),
    precipitation_mm := (ctx.weatherAt (hourFloor r.timestamp)).map (fun w => w.2.1),
    weather_code := (ctx.weatherAt (hourFloor r.timestamp)).map (fun w => w.2.2.1),
    cloud_cover_percent :=
      (ctx.weatherAt (hourFloor r.timestamp)).map (fun w => w.2.2.2),
    data_source := "" }

/-- The composite dataset key (timestamp, facility_name, facility_type). -/
def rowKey (r : Row) : Int × String × String :=
  (r.timestamp, r.facility_name, r.facility_type)

/-- Occupancy range filter of `validate_data`: keep rows with
`occupancy_percent` in [0, 100]. -/
def rangeFilter (df : List Row) : List Row :=
  df.filter (fun r =>
    decide (0 ≤ r.occupancy_percent) && decide (r.occupancy_percent ≤ 100))

/-- pandas `duplicated(subset=key, keep="first")` then drop: keep a row
iff its key was not seen earlier. -/
def dedupFirstAux (seen : List (Int × String × String)) :
    List Row → List Row
  | [] => []
  | x :: xs =>
    if rowKey x ∈ seen then dedupFirstAux seen xs
    else x :: dedupFirstAux (rowKey x :: seen) xs

def dedupFirstBy (l : List Row) : List Row := dedupFirstAux [] l

/-- pandas `drop_duplicates(subset=key, keep="last")`: keep a row iff no
later row carries the same key. -/
def dedupLastBy : List Row → List Row
  | [] => []
  | x :: xs =>
    if rowKey x ∈ xs.map rowKey then dedupLastBy xs else x :: dedupLastBy xs

/-- Embedding of `validate_data`: occupancy-range filter, then key-dedup
keeping the first occurrence. -/
def validate_data (df : List Row) : List Row :=
  dedupFirstBy (rangeFilter df)

/-- Comparison of `sort_values(["timestamp", "facility_name"])`. -/
def rowLe (a b : Row) : Bool :=
  decide (a.timestamp < b.timestamp) ||
    (decide (a.timestamp = b.timestamp) && decide (a.facility_name ≤ b.facility_name))

def sortRows (l : List Row) : List Row := insertionSort rowLe l

/-- `existing_df["timestamp"].max()`. -/
def maxTimestamp : List Row → Int
  | [] => 0
  | x :: xs => xs.foldl (fun a r => max a r.timestamp) x.timestamp

/-- The incremental cutoff: `since = existing max timestamp`, or absent
when there is no existing dataset. -/
def sinceOf (existing : List Row) : Option Int :=
  if existing = [] then none else some (maxTimestamp existing)

/-- `combined_df["data_source"] = "historical"` applied to every row. -/
def setDataSource (r : Row) : Row := { r with data_source := "historical" }

/-- Embedding of the `transform` merge pipeline. Inputs: the existing
persisted dataset (empty list when the output file does not exist), the
raw snapshot files in sorted filename order, the alias map, and the
feature oracles. `none` means the run exits early ("No new pool data to
transform") leaving the persisted dataset untouched; `some d` means `d`
is written out. -/
def transform (existing : List Row) (files : List PoolFile)
    (aliases : List (String × String)) (ctx : FeatureCtx) :
    Option (List Row) :=
  let pool := load_pool_data files (sinceOf existing) aliases
  if pool = [] then none
  else
    let validated := validate_data (pool.map (merge_features ctx))
    let combined :=
      if existing = [] then validated
      else dedupLastBy (existing ++ validated)
    some ((sortRows combined).map setDataSource)

theorem rowKey_setDataSource (r : Row) : rowKey (setDataSource r) = rowKey r := rfl

theorem keys_map_setDataSource (l : List Row) :
    (l.map setDataSource).map rowKey = l.map rowKey := by
  rw [List.map_map]
  rfl

theorem keys_sortRows_perm (l : List Row) :
    ((sortRows l).map rowKey).Perm (l.map rowKey) :=
  (perm_insertionSort rowLe l).map rowKey

theorem mem_of_mem_dedupLastBy :
    ∀ (l : List Row) (x : Row), x ∈ dedupLastBy l → x ∈ l := by
  intro l
  induction l with
  | nil => intro x hx; simpa [dedupLastBy] using hx
  | cons a as ih =>
    intro x hx
    simp only [dedupLastBy] at hx
    by_cases ha : rowKey a ∈ as.map rowKey
    · rw [if_pos ha] at hx
      exact List.mem_cons_of_mem a (ih x hx)
    · rw [if_neg ha] at hx
      rcases List.mem_cons.1 hx with hx | hx
      · rw [hx]; simp
      · exact List.mem_cons_of_mem a (ih x hx)

theorem mem_keys_dedupLastBy :
    ∀ (l : List Row) (k : Int × String × String),
      k ∈ (dedupLastBy l).map rowKey ↔ k ∈ l.map rowKey := by
  intro l
  induction l with
  | nil => intro k; simp [dedupLastBy]
  | cons a as ih =>
    intro k
    simp only [dedupLastBy]
    by_cases ha : rowKey a ∈ as.map rowKey
    · rw [if_pos ha, ih]
      simp only [List.map_cons, List.mem_cons]
      constructor
      · exact Or.inr
      · rintro (h | h)
        · rw [h]; exact ha
        · exact h
    · rw [if_neg ha]
      simp [List.mem_cons, ih]

theorem nodup_keys_dedupLastBy :
    ∀ l : List Row, ((dedupLastBy l).map rowKey).Nodup := by
  intro l
  induction l with
  | nil => simp [dedupLastBy]
  | cons a as ih =>
    simp only [dedupLastBy]
    by_cases ha : rowKey a ∈ as.map rowKey
    · rw [if_pos ha]; exact ih
    · rw [if_neg ha]
      rw [List.map_cons]
      exact List.Nodup.cons
        (fun h => ha ((mem_keys_dedupLastBy as (rowKey a)).1 h)) ih

theorem dedupLastBy_ne_nil (l : List Row) (h : l ≠ []) : dedupLastBy l ≠ [] := by
  match l with
  | [] => exact absurd rfl h
  | a :: as =>
    intro hcon
    have ha : rowKey a ∈ (a :: as).map rowKey := by simp
    have := (mem_keys_dedupLastBy (a :: as) (rowKey a)).2 ha
    rw [hcon] at this
    simp at this

theorem mem_of_mem_dedupFirstAux :
    ∀ (l : List Row) (seen : List (Int × String × String)) (x : Row),
      x ∈ dedupFirstAux seen l → x ∈ l := by
  intro l
  induction l with
  | nil => intro seen x hx; simpa [dedupFirstAux] using hx
  | cons a as ih =>
    intro seen x hx
    simp only [dedupFirstAux] at hx
    by_cases ha : rowKey a ∈ seen
    · rw [if_pos ha] at hx
      exact List.mem_cons_of_mem a (ih seen x hx)
    · rw [if_neg ha] at hx
      rcases List.mem_cons.1 hx with hx | hx
      · rw [hx]; simp
      · exact List.mem_cons_of_mem a (ih _ x hx)

theorem mem_keys_dedupFirstAux :
    ∀ (l : List Row) (seen : List (Int × String × String))
      (k : Int × String × String),
      k ∈ (dedupFirstAux seen l).map rowKey ↔
        (k ∈ l.map rowKey ∧ k ∉ seen) := by
  intro l
  induction l with
  | nil => intro seen k; simp [dedupFirstAux]
  | cons a as ih =>
    intro seen k
    simp only [dedupFirstAux]
    by_cases ha : rowKey a ∈ seen
    · rw [if_pos ha, ih]
      simp only [List.map_cons, List.mem_cons]
      constructor
      · rintro ⟨h1, h2⟩
        exact ⟨Or.inr h1, h2⟩
      · rintro ⟨h1 | h1, h2⟩
        · rw [h1] at h2
          exact absurd ha h2
        · exact ⟨h1, h2⟩
    · rw [if_neg ha]
      simp only [List.map_cons, List.mem_cons, ih]
      constructor
      · rintro (h | ⟨h1, h2⟩)
        · rw [h]
          exact ⟨Or.inl rfl, ha⟩
        · refine ⟨Or.inr h1, fun hcon => h2 (Or.inr hcon)⟩
      · rintro ⟨h1 | h1, h2⟩
        · exact Or.inl h1
        · by_cases hk : k = rowKey a
          · exact Or.inl hk
          · refine Or.inr ⟨h1, ?_⟩
            rintro (hcon | hcon)
            · exact hk hcon
            · exact h2 hcon

theorem nodup_keys_dedupFirstAux :
    ∀ (l : List Row) (seen : List (Int × String × String)),
      ((dedupFirstAux seen l).map rowKey).Nodup := by
  intro l
  induction l with
  | nil => intro seen; simp [dedupFirstAux]
  | cons a as ih =>
    intro seen
    simp only [dedupFirstAux]
    by_cases ha : rowKey a ∈ seen
    · rw [if_pos ha]; exact ih seen
    · rw [if_neg ha]
      rw [List.map_cons]
      refine List.Nodup.cons ?_ (ih _)
      intro hcon
      have := (mem_keys_dedupFirstAux as (rowKey a :: seen) (rowKey a)).1 hcon
      exact this.2 (by simp)

theorem le_maxTimestamp (l : List Row) (r : Row) (hr : r ∈ l) :
    r.timestamp ≤ maxTimestamp l := by
  match l with
  | [] => simp at hr
  | x :: xs =>
    have hfold : ∀ (ys : List Row) (init : Int),
        init ≤ ys.foldl (fun a r => max a r.timestamp) init ∧
        ∀ y ∈ ys, y.timestamp ≤ ys.foldl (fun a r => max a r.timestamp) init := by
      intro ys
      induction ys with
      | nil => intro init; simp
      | cons y ys ihy =>
        intro init
        rw [List.foldl_cons]
        obtain ⟨h1, h2⟩ := ihy (max init y.timestamp)
        refine ⟨le_trans (le_max_left _ _) h1, ?_⟩
        intro z hz
        rcases List.mem_cons.1 hz with hz | hz
        · rw [hz]
          exact le_trans (le_max_right _ _) h1
        · exact h2 z hz
    rcases List.mem_cons.1 hr with hr | hr
    · rw [hr]
      exact (hfold xs x.timestamp).1
    · exact (hfold xs x.timestamp).2 r hr

theorem maxTimestamp_mem (l : List Row) (h : l ≠ []) :
    ∃ r ∈ l, maxTimestamp l = r.timestamp := by
  match l with
  | [] => exact absurd rfl h
  | x :: xs =>
    have hfold : ∀ (ys : List Row) (init : Int),
        ys.foldl (fun a r => max a r.timestamp) init = init ∨
        ∃ y ∈ ys, ys.foldl (fun a r => max a r.timestamp) init = y.timestamp := by
      intro ys
      induction ys with
      | nil => intro init; simp
      | cons y ys ihy =>
        intro init
        rw [List.foldl_cons]
        rcases ihy (max init y.timestamp) with h1 | ⟨z, hz, h1⟩
        · rcases le_total init y.timestamp with hm | hm
          · right
            exact ⟨y, by simp, by rw [h1]; exact max_eq_right hm⟩
          · left; rw [h1]; exact max_eq_left hm
        · right
          exact ⟨z, List.mem_cons_of_mem y hz, h1⟩
    rcases hfold xs x.timestamp with h1 | ⟨y, hy, h1⟩
    · exact ⟨x, by simp, h1⟩
    · exact ⟨y, List.mem_cons_of_mem x hy, h1⟩

theorem getLast?_cons_ne_nil {α : Type} (a : α) (l : List α) (h : l ≠ []) :
    (a :: l).getLast? = l.getLast? := by
  match l with
  | [] => exact absurd rfl h
  | b :: t => simp [List.getLast?_cons_cons]

theorem filter_key_eq_singleton :
    ∀ (l : List Row), (l.map rowKey).Nodup → ∀ x ∈ l,
      l.filter (fun y => decide (rowKey y = rowKey x)) = [x] := by
  intro l
  induction l with
  | nil => intro _ x hx; simp at hx
  | cons a as ih =>
    intro hnd x hx
    rw [List.map_cons, List.nodup_cons] at hnd
    rcases List.mem_cons.1 hx with hx | hx
    · rw [List.filter_cons_of_pos (by simp [hx])]
      have hnil : as.filter (fun y => decide (rowKey y = rowKey x)) = [] := by
        rw [List.filter_eq_nil_iff]
        intro y hy
        simp only [decide_eq_true_eq]
        intro hcon
        rw [hx] at hcon
        exact hnd.1 (hcon ▸ List.mem_map_of_mem rowKey hy)
      rw [hnil, hx]
    · have hne : rowKey a ≠ rowKey x := by
        intro hcon
        exact hnd.1 (hcon ▸ List.mem_map_of_mem rowKey hx)
      rw [List.filter_cons_of_neg (by simp [hne])]
      exact ih hnd.2 x hx

theorem mem_dedupLastBy_iff :
    ∀ (l : List Row) (x : Row),
      x ∈ dedupLastBy l ↔
        (l.filter (fun y => decide (rowKey y = rowKey x))).getLast? = some x := by
  intro l
  induction l with
  | nil => intro x; simp [dedupLastBy]
  | cons a as ih =>
    intro x
    simp only [dedupLastBy]
    by_cases ha : rowKey a ∈ as.map rowKey
    · rw [if_pos ha]
      by_cases hax : rowKey a = rowKey x
      · rw [List.filter_cons_of_pos (by simp [hax])]
        obtain ⟨y, hy, hyk⟩ := List.mem_map.1 ha
        have hyf : y ∈ as.filter (fun y => decide (rowKey y = rowKey x)) :=
          List.mem_filter.2 ⟨hy, by simp [hyk, hax]⟩
        rw [getLast?_cons_ne_nil a _ (List.ne_nil_of_mem hyf)]
        exact ih x
      · rw [List.filter_cons_of_neg (by simp [hax])]
        exact ih x
    · rw [if_neg ha]
      by_cases hax : rowKey a = rowKey x
      · have hfnil : as.filter (fun y => decide (rowKey y = rowKey x)) = [] := by
          rw [List.filter_eq_nil_iff]
          intro y hy
          simp only [decide_eq_true_eq]
          intro hcon
          exact ha (hax ▸ hcon ▸ List.mem_map_of_mem rowKey hy)
        rw [List.filter_cons_of_pos (by simp [hax]), hfnil]
        constructor
        · intro hx
          rcases List.mem_cons.1 hx with hx | hx
          · rw [hx]; rfl
          · have hmem := mem_of_mem_dedupLastBy as x hx
            have hkey := List.mem_map_of_mem rowKey hmem
            rw [← hax] at hkey
            exact absurd hkey ha
        · intro hx
          have hx2 : a = x := by simpa using hx
          rw [← hx2]
          simp
      · rw [List.filter_cons_of_neg (by simp [hax])]
        constructor
        · intro hx
          rcases List.mem_cons.1 hx with hx | hx
          · exact absurd (congrArg rowKey hx.symm) hax
          · exact (ih x).1 hx
        · intro hx
          exact List.mem_cons_of_mem a ((ih x).2 hx)

theorem mem_dedupFirstAux_head :
    ∀ (l : List Row) (seen : List (Int × String × String)) (x : Row),
      x ∈ dedupFirstAux seen l ↔
        (rowKey x ∉ seen ∧
          (l.filter (fun y => decide (rowKey y = rowKey x))).head? = some x) := by
  intro l
  induction l with
  | nil => intro seen x; simp [dedupFirstAux]
  | cons a as ih =>
    intro seen x
    simp only [dedupFirstAux]
    by_cases ha : rowKey a ∈ seen
    · rw [if_pos ha]
      by_cases hax : rowKey a = rowKey x
      · rw [ih]
        constructor
        · rintro ⟨h1, h2⟩
          exact absurd (hax ▸ ha) h1
        · rintro ⟨h1, h2⟩
          exact absurd (hax ▸ ha) h1
      · rw [List.filter_cons_of_neg (by simp [hax])]
        exact ih seen x
    · rw [if_neg ha]
      by_cases hax : rowKey a = rowKey x
      · rw [List.filter_cons_of_pos (by simp [hax])]
        simp only [List.head?_cons]
        constructor
        · intro hx
          rcases List.mem_cons.1 hx with hx | hx
          · rw [hx]
            exact ⟨hax ▸ ha, rfl⟩
          · obtain ⟨h1, _⟩ := (ih _ x).1 hx
            exact absurd (List.mem_cons_self _ _) (hax ▸ h1)
        · rintro ⟨h1, h2⟩
          have hx2 : a = x := by simpa using h2
          rw [← hx2]
          simp
      · rw [List.filter_cons_of_neg (by simp [hax])]
        constructor
        · intro hx
          rcases List.mem_cons.1 hx with hx | hx
          · exact absurd (congrArg rowKey hx.symm) hax
          · obtain ⟨h1, h2⟩ := (ih _ x).1 hx
            refine ⟨fun hcon => h1 (List.mem_cons_of_mem _ hcon), h2⟩
        · rintro ⟨h1, h2⟩
          refine List.mem_cons_of_mem a ((ih _ x).2 ⟨?_, h2⟩)
          intro hcon
          rcases List.mem_cons.1 hcon with hcon | hcon
          · exact hax hcon.symm
          · exact h1 hcon

/-- Claim C8: within the new batch, `validate_data` removes key-duplicate rows
keeping the FIRST (in-range) occurrence; the merge against the existing
dataset then deduplicates on the same key keeping the LAST occurrence, so
on an exact key collision between an existing row and a new validated row
the new row survives and the conflicting old row is dropped. -/
theorem dedup_keep_policies (batch existing : List Row) (rNew : Row)
    (hNew : rNew ∈ validate_data batch) :
    (∀ x, x ∈ validate_data batch ↔
      ((rangeFilter batch).filter
        (fun y => decide (rowKey y = rowKey x))).head? = some x) ∧
    rNew ∈ dedupLastBy (existing ++ validate_data batch) ∧
    (∀ rOld ∈ existing, rowKey rOld = rowKey rNew → rOld ≠ rNew →
      rOld ∉ dedupLastBy (existing ++ validate_data batch)) := by
  have hchar : ∀ x, x ∈ validate_data batch ↔
      ((rangeFilter batch).filter
        (fun y => decide (rowKey y = rowKey x))).head? = some x := by
    intro x
    rw [validate_data, dedupFirstBy, mem_dedupFirstAux_head]
    simp
  have hnd : ((validate_data batch).map rowKey).Nodup :=
    nodup_keys_dedupFirstAux _ _
  have hsingle : (validate_data batch).filter
      (fun y => decide (rowKey y = rowKey rNew)) = [rNew] :=
    filter_key_eq_singleton _ hnd rNew hNew
  have hlastNew : ((existing ++ validate_data batch).filter
      (fun y => decide (rowKey y = rowKey rNew))).getLast? = some rNew := by
    rw [List.filter_append, hsingle, List.getLast?_concat]
  refine ⟨hchar, (mem_dedupLastBy_iff _ rNew).2 hlastNew, ?_⟩
  intro rOld hOld hkeys hne hcon
  have hlastOld := (mem_dedupLastBy_iff _ rOld).1 hcon
  rw [hkeys, hlastNew] at hlastOld
  exact hne (Option.some.inj hlastOld).symm

/-- Concrete rows for the dedup-policy witness. -/
def demoRow (ts : Int) (nm : String) (occ : Int) : Row :=
  { timestamp := ts, facility_name := nm, facility_type := "pool",
    occupancy_percent := occ, is_open := 1, hour := 10, day_of_week := 1,
    is_weekend := 0, month := 1, is_holiday := 0, is_school_vacation := 0,
    temperature_c := none, precipitation_mm := none, weather_code := none,
    cloud_cover_percent := none, data_source := "historical" }

theorem dedup_keep_policies_witness :
    demoRow 0 "A" 10 ∈ dedupLastBy
      ([demoRow 0 "A" 99] ++
        validate_data [demoRow 0 "A" 10, demoRow 0 "A" 20]) :=
  (dedup_keep_policies [demoRow 0 "A" 10, demoRow 0 "A" 20]
    [demoRow 0 "A" 99] (demoRow 0 "A" 10) (by decide)).2.1

/-- A facility whose raw JSON reports `is_open: null` (unknown). -/
def facUnknown : PoolFacility :=
  { pool_name := "Nordbad", facility_type := "pool", timestamp := 100,
    occupancy_percent := 50, is_open := none, hour := 10, day_of_week := 5,
    is_weekend := false }

/-- The same facility explicitly closed (`is_open: false`). -/
def facClosed : PoolFacility :=
  { pool_name := "Nordbad", facility_type := "pool", timestamp := 100,
    occupancy_percent := 50, is_open := some false, hour := 10,
    day_of_week := 5, is_weekend := false }

/-- Claim C9 (counterexample): the ingester binarizes `is_open` with
`1 if facility.get("is_open") else 0`, so an unknown (absent/null)
`is_open` and an explicit closed produce IDENTICAL records (both 0): the
tri-state is not preserved in the resulting record. -/
theorem is_open_tristate_counterexample :
    facUnknown.is_open ≠ facClosed.is_open ∧
    mkBaseRec [] facUnknown = mkBaseRec [] facClosed ∧
    (mkBaseRec [] facUnknown).is_open = 0 :=
  ⟨by decide, rfl, rfl⟩

/-- Claim C9 (amended): the ingested record's `is_open` field is binary:
truthy (`true`) maps to 1, while both `false` (closed) and a missing/null
value (unknown) map to 0 — unknown and closed are indistinguishable
downstream. -/
theorem is_open_binarized (aliases : List (String × String))
    (f : PoolFacility) :
    (f.is_open = some true → (mkBaseRec aliases f).is_open = 1) ∧
    (f.is_open = some false → (mkBaseRec aliases f).is_open = 0) ∧
    (f.is_open = none → (mkBaseRec aliases f).is_open = 0) := by
  refine ⟨?_, ?_, ?_⟩ <;> intro h <;> simp [mkBaseRec, h]

theorem is_open_binarized_witness :
    (mkBaseRec [] facUnknown).is_open = 0 :=
  (is_open_binarized [] facUnknown).2.2 rfl

/-- A well-formed document that simply lacks `scrape_timestamp`. -/
def docNoTs : PoolDoc :=
  { scrape_timestamp := none, sections := [[facUnknown]] }

/-- Claim C4 (counterexample): the claim says a file lacking the top-level
`scrape_timestamp` is skipped, but `data.get("scrape_timestamp")` returns
`None` without raising, the `if since and scrape_ts` guard is simply
false, and the file's observations are ALL ingested (even bypassing the
`since` filter). -/
theorem missing_scrape_ts_counterexample :
    docNoTs.scrape_timestamp = none ∧
    loadFileRecords [] (some 1000) (some docNoTs) =
      [mkBaseRec [] facUnknown] ∧
    loadFileRecords [] (some 1000) (some docNoTs) ≠ [] :=
  ⟨rfl, rfl, by decide⟩

/-- Claim C4 (amended): a raw file whose JSON is malformed is skipped with a
warning and the batch continues over the remaining files; a file that
merely lacks `scrape_timestamp` is NOT skipped — its observations are
ingested in full, bypassing the `since` filter. -/
theorem malformed_skip_amended (aliases : List (String × String))
    (since : Option Int) (rest : List PoolFile) (d : PoolDoc) :
    (load_pool_data (none :: rest) since aliases =
      load_pool_data rest since aliases) ∧
    (d.scrape_timestamp = none →
      load_pool_data (some d :: rest) since aliases =
        extractPoolDoc aliases d ++ load_pool_data rest since aliases) := by
  constructor
  · simp [load_pool_data, loadFileRecords]
  · intro h
    simp only [load_pool_data, List.flatMap_cons]
    congr 1
    cases since with
    | none => rfl
    | some s => simp [loadFileRecords, h]

theorem malformed_skip_amended_witness :
    load_pool_data [some docNoTs] (some 1000) [] =
      extractPoolDoc [] docNoTs ++ load_pool_data [] (some 1000) [] :=
  (malformed_skip_amended [] (some 1000) [] docNoTs).2 rfl

/-- Claim C3: with no existing dataset, `since` is absent and every well-formed
file is processed in full; with an existing dataset, `since` is its
maximum timestamp and a file carrying an embedded `scrape_timestamp` is
ingested in full if that timestamp is not strictly before `since` and
contributes nothing at all otherwise (all-or-nothing at file
granularity). -/
theorem incremental_cutoff_admission (existing : List Row)
    (files : List PoolFile) (aliases : List (String × String))
    (d : PoolDoc) (ts : Int) :
    (existing = [] →
      load_pool_data files (sinceOf existing) aliases =
        files.flatMap (fun f =>
          match f with
          | none => []
          | some d2 => extractPoolDoc aliases d2)) ∧
    (existing ≠ [] → d.scrape_timestamp = some ts →
      (ts < maxTimestamp existing →
        loadFileRecords aliases (sinceOf existing) (some d) = []) ∧
      (maxTimestamp existing ≤ ts →
        loadFileRecords aliases (sinceOf existing) (some d) =
          extractPoolDoc aliases d)) := by
  constructor
  · intro hem
    rw [sinceOf, if_pos hem, load_pool_data]
    have hfun : loadFileRecords aliases none = (fun f : PoolFile =>
        match f with
        | none => []
        | some d2 => extractPoolDoc aliases d2) := by
      funext f
      cases f with
      | none => rfl
      | some d2 => rfl
    rw [hfun]
  · intro hne hts
    rw [sinceOf, if_neg hne]
    constructor
    · intro hlt
      simp [loadFileRecords, hts, hlt]
    · intro hge
      have hnlt : ¬ ts < maxTimestamp existing := not_lt.2 hge
      simp [loadFileRecords, hts, hnlt]

/-- A raw document strictly older than the demo dataset's cutoff. -/
def demoDocOld : PoolDoc :=
  { scrape_timestamp := some 50, sections := [[facUnknown]] }

theorem incremental_cutoff_admission_witness :
    loadFileRecords [] (sinceOf [demoRow 100 "A" 10]) (some demoDocOld) = [] :=
  (((incremental_cutoff_admission [demoRow 100 "A" 10] [] []
      demoDocOld 50).2 (by decide) rfl).1) (by decide)

/-- Claim C2: every dataset the merge pipeline persists has no two rows sharing
the composite key (timestamp, facility_name, facility_type), whether or
not an existing dataset was present: a fresh run is key-deduplicated by
validation, and a merge run ends in `drop_duplicates(keep="last")`. -/
theorem dataset_key_unique (existing : List Row) (files : List PoolFile)
    (aliases : List (String × String)) (ctx : FeatureCtx) (D : List Row)
    (h : transform existing files aliases ctx = some D) :
    (D.map rowKey).Nodup := by
  simp only [transform] at h
  split at h
  · exact absurd h (by simp)
  · have hD := Option.some.inj h
    rw [← hD, keys_map_setDataSource]
    refine ((keys_sortRows_perm _).nodup_iff).2 ?_
    by_cases hex : existing = []
    · rw [if_pos hex]
      exact nodup_keys_dedupFirstAux _ _
    · rw [if_neg hex]
      exact nodup_keys_dedupLastBy _

/-- Trivial feature oracles for concrete runs of the pipeline. -/
def demoCtx : FeatureCtx :=
  { monthOf := fun _ => 1, isPublicHoliday := fun _ => false,
    isSchoolVacation := fun _ => false, weatherAt := fun _ => none }

def demoFac (nm : String) (ts occ : Int) : PoolFacility :=
  { pool_name := nm, facility_type := "pool", timestamp := ts,
    occupancy_percent := occ, is_open := some true, hour := 10,
    day_of_week := 1, is_weekend := false }

def demoDoc : PoolDoc :=
  { scrape_timestamp := some 100, sections := [[demoFac "Nordbad" 100 50]] }

def demoOut : List Row := [demoRow 100 "Nordbad" 50]

theorem dataset_key_unique_witness : (demoOut.map rowKey).Nodup :=
  dataset_key_unique [] [some demoDoc] [] demoCtx demoOut (by decide)

theorem loadFileRecords_sub_none (aliases : List (String × String))
    (s : Option Int) (f : PoolFile) (b : BaseRec)
    (hb : b ∈ loadFileRecords aliases s f) :
    b ∈ loadFileRecords aliases none f := by
  cases f with
  | none => simpa [loadFileRecords] using hb
  | some d =>
    cases s with
    | none => exact hb
    | some sv =>
      cases hts : d.scrape_timestamp with
      | none =>
        simp only [loadFileRecords, hts] at hb ⊢
        exact hb
      | some ts =>
        simp only [loadFileRecords, hts] at hb ⊢
        by_cases hlt : ts < sv
        · rw [if_pos hlt] at hb
          simp at hb
        · rw [if_neg hlt] at hb
          exact hb

theorem loadFileRecords_sub_le (aliases : List (String × String))
    (s1 s2 : Int) (hle : s1 ≤ s2) (f : PoolFile) (b : BaseRec)
    (hb : b ∈ loadFileRecords aliases (some s2) f) :
    b ∈ loadFileRecords aliases (some s1) f := by
  cases f with
  | none => simpa [loadFileRecords] using hb
  | some d =>
    cases hts : d.scrape_timestamp with
    | none =>
      simp only [loadFileRecords, hts] at hb ⊢
      exact hb
    | some ts =>
      simp only [loadFileRecords, hts] at hb ⊢
      by_cases hlt : ts < s2
      · rw [if_pos hlt] at hb
        simp at hb
      · rw [if_neg hlt] at hb
        rw [if_neg (by omega)]
        exact hb

/-- Claim C1 (amended): re-running the merge with identical raw files always
preserves the persisted dataset's composite-key set and its row count;
when moreover every raw file's `scrape_timestamp` is STRICTLY before the
dataset's maximum timestamp, the second run changes nothing at all (it
either exits early writing nothing, or rewrites the identical dataset).
Content byte-for-byte equality does NOT hold in general: a file at
exactly the cutoff is re-ingested and its rows replace existing rows on
key collisions (see the counterexample). -/
theorem merge_second_run (existing : List Row) (files : List PoolFile)
    (aliases : List (String × String)) (ctx : FeatureCtx) (D : List Row)
    (h1 : transform existing files aliases ctx = some D) :
    (∀ D', transform D files aliases ctx = some D' →
      ((∀ k, k ∈ D'.map rowKey ↔ k ∈ D.map rowKey) ∧
        D'.length = D.length)) ∧
    ((∀ d : PoolDoc, some d ∈ files →
        ∃ ts, d.scrape_timestamp = some ts ∧ ts < maxTimestamp D) →
      (transform D files aliases ctx = none ∨
        transform D files aliases ctx = some D)) := by
  have hndD : (D.map rowKey).Nodup := dataset_key_unique _ _ _ _ _ h1
  simp only [transform] at h1
  split at h1
  · exact absurd h1 (by simp)
  · next hpool1 =>
    have hD := Option.some.inj h1
    by_cases hDnil : D = []
    · -- an empty written dataset forces an empty existing dataset, and the
      -- second run is then literally the first run again
      have hex : existing = [] := by
        by_contra hex
        have hc1 : dedupLastBy (existing ++ validate_data
            ((load_pool_data files (sinceOf existing) aliases).map
              (merge_features ctx))) ≠ [] := by
          refine dedupLastBy_ne_nil _ ?_
          intro hcon
          rcases List.append_eq_nil.1 hcon with ⟨h, _⟩
          exact hex h
        rw [if_neg hex] at hD
        rw [hDnil] at hD
        have hsortnil := List.map_eq_nil.1 hD
        have hcombnil : dedupLastBy (existing ++ validate_data
            ((load_pool_data files (sinceOf existing) aliases).map
              (merge_features ctx))) = [] := by
          have hp := perm_insertionSort rowLe (dedupLastBy (existing ++
            validate_data ((load_pool_data files (sinceOf existing)
              aliases).map (merge_features ctx))))
          rw [sortRows] at hsortnil
          rw [hsortnil] at hp
          exact hp.nil_eq.symm
        exact hc1 hcombnil
      subst hex
      subst hDnil
      have hsame : transform [] files aliases ctx = some [] := by
        simp only [transform]
        rw [if_neg hpool1]
        exact h1
      constructor
      · intro D2 hD2
        rw [hsame] at hD2
        have hD2nil : D2 = [] := (Option.some.inj hD2).symm
        subst hD2nil
        exact ⟨fun k => Iff.rfl, rfl⟩
      · intro _
        exact Or.inr hsame
    · -- D nonempty: the second run's cutoff is max(D.timestamp)
      have hsince2 : sinceOf D = some (maxTimestamp D) := by
        rw [sinceOf, if_neg hDnil]
      -- every record the second run admits was admitted by the first run
      have hmonob : ∀ b, b ∈ load_pool_data files (sinceOf D) aliases →
          b ∈ load_pool_data files (sinceOf existing) aliases := by
        intro b hb
        rw [load_pool_data, List.mem_flatMap] at hb ⊢
        obtain ⟨f, hf, hbf⟩ := hb
        refine ⟨f, hf, ?_⟩
        rw [hsince2] at hbf
        by_cases hex : existing = []
        · rw [sinceOf, if_pos hex]
          exact loadFileRecords_sub_none aliases _ f b hbf
        · rw [sinceOf, if_neg hex]
          -- max(existing) ≤ max(D) because every existing key survives
          have hmaxle : maxTimestamp existing ≤ maxTimestamp D := by
            obtain ⟨r, hr, hrts⟩ := maxTimestamp_mem existing hex
            have hk : rowKey r ∈ (existing ++ validate_data
                ((load_pool_data files (sinceOf existing) aliases).map
                  (merge_features ctx))).map rowKey := by
              rw [List.map_append]
              exact List.mem_append_left _ (List.mem_map_of_mem rowKey hr)
            have hk2 : rowKey r ∈ D.map rowKey := by
              rw [← hD, keys_map_setDataSource]
              rw [(keys_sortRows_perm _).mem_iff]
              rw [if_neg hex]
              exact (mem_keys_dedupLastBy _ _).2 hk
            obtain ⟨r2, hr2, hr2k⟩ := List.mem_map.1 hk2
            have hts2 : r2.timestamp = r.timestamp :=
              congrArg (fun p => p.1) hr2k
            rw [hrts, ← hts2]
            exact le_maxTimestamp D r2 hr2
          exact loadFileRecords_sub_le aliases _ _ hmaxle f b hbf
      -- keys admitted and validated by the second run are already in D
      have hsubkeys : ∀ k, k ∈ (validate_data
          ((load_pool_data files (sinceOf D) aliases).map
            (merge_features ctx))).map rowKey → k ∈ D.map rowKey := by
        intro k hk
        rw [validate_data, dedupFirstBy] at hk
        rw [mem_keys_dedupFirstAux] at hk
        obtain ⟨x, hx, hxk⟩ := List.mem_map.1 hk.1
        rw [rangeFilter, List.mem_filter] at hx
        obtain ⟨b, hb, hbx⟩ := List.mem_map.1 hx.1
        have hb1 := hmonob b hb
        have hx1 : x ∈ rangeFilter ((load_pool_data files
            (sinceOf existing) aliases).map (merge_features ctx)) := by
          rw [rangeFilter, List.mem_filter]
          exact ⟨hbx ▸ List.mem_map_of_mem _ hb1, hx.2⟩
        have hkV1 : k ∈ (validate_data ((load_pool_data files
            (sinceOf existing) aliases).map (merge_features ctx))).map
              rowKey := by
          rw [validate_data, dedupFirstBy, mem_keys_dedupFirstAux]
          exact ⟨hxk ▸ List.mem_map_of_mem rowKey hx1, by simp⟩
        rw [← hD, keys_map_setDataSource, (keys_sortRows_perm _).mem_iff]
        by_cases hex : existing = []
        · rw [if_pos hex]
          exact hkV1
        · rw [if_neg hex]
          rw [mem_keys_dedupLastBy, List.map_append]
          exact List.mem_append_right _ hkV1
      constructor
      · intro D2 hD2
        simp only [transform] at hD2
        rw [if_neg hDnil] at hD2
        by_cases hpool2 : load_pool_data files (sinceOf D) aliases = []
        · rw [if_pos hpool2] at hD2
          exact absurd hD2 (by simp)
        · rw [if_neg hpool2] at hD2
          have hD2eq := Option.some.inj hD2
          have hiff : ∀ k, k ∈ D2.map rowKey ↔ k ∈ D.map rowKey := by
            intro k
            rw [← hD2eq, keys_map_setDataSource,
              (keys_sortRows_perm _).mem_iff,
              mem_keys_dedupLastBy, List.map_append, List.mem_append]
            constructor
            · rintro (h | h)
              · exact h
              · exact hsubkeys k h
            · exact Or.inl
          have hndD2 : (D2.map rowKey).Nodup := by
            rw [← hD2eq, keys_map_setDataSource]
            exact ((keys_sortRows_perm _).nodup_iff).2
              (nodup_keys_dedupLastBy _)
          refine ⟨hiff, ?_⟩
          have hfin : (D2.map rowKey).toFinset = (D.map rowKey).toFinset := by
            apply Finset.ext
            intro k
            rw [List.mem_toFinset, List.mem_toFinset]
            exact hiff k
          have hlen2 : (D2.map rowKey).length = (D.map rowKey).length := by
            rw [← List.toFinset_card_of_nodup hndD2,
              ← List.toFinset_card_of_nodup hndD, hfin]
          simpa using hlen2
      · intro hstrict
        left
        simp only [transform]
        rw [if_pos ?hnil]
        case hnil =>
          rw [load_pool_data]
          rw [List.flatMap_eq_nil_iff]
          intro f hf
          cases f with
          | none => rfl
          | some d =>
            obtain ⟨ts, hts, hlt⟩ := hstrict d hf
            rw [hsince2]
            simp [loadFileRecords, hts, hlt]

theorem merge_second_run_witness :
    (∀ k, k ∈ demoOut.map rowKey ↔ k ∈ demoOut.map rowKey) ∧
    demoOut.length = demoOut.length :=
  (merge_second_run [] [some demoDoc] [] demoCtx demoOut (by decide)).1
    demoOut (by decide)

/-- Two files, one strictly older and one at exactly the dataset cutoff,
carrying the same composite key with different occupancy values. -/
def cexDocA : PoolDoc :=
  { scrape_timestamp := some 10, sections := [[demoFac "F" 50 50]] }

def cexDocZ : PoolDoc :=
  { scrape_timestamp := some 100,
    sections := [[demoFac "F" 50 60, demoFac "G" 100 30]] }

def cexFiles : List PoolFile := [some cexDocA, some cexDocZ]

def cexD : List Row := [demoRow 50 "F" 50, demoRow 100 "G" 30]

def cexD2 : List Row := [demoRow 50 "F" 60, demoRow 100 "G" 30]

/-- Claim C1 (counterexample): with no raw file newer than the dataset's maximum
timestamp, the second merge run still rewrites row content.  The first run
keeps the older file's occupancy 50 for key (50, F, pool) (validation
keeps the first occurrence); the second run skips the older file, but the
file at exactly the cutoff is re-ingested (the skip is strict `<`) and its
occupancy-60 row wins the keep-last merge dedup, so the persisted row set
changes. -/
theorem merge_idempotence_counterexample :
    transform [] cexFiles [] demoCtx = some cexD ∧
    cexDocA.scrape_timestamp = some 10 ∧ (10 : Int) ≤ maxTimestamp cexD ∧
    cexDocZ.scrape_timestamp = some 100 ∧ (100 : Int) ≤ maxTimestamp cexD ∧
    transform cexD cexFiles [] demoCtx = some cexD2 ∧
    cexD2 ≠ cexD := by
  decide

end SwmPool
